import Mathlib

/-!
Verification of the wordle_solve repository's core algorithms:
the per-letter feedback engine (`Board._compare_guess`), the corpus
constraint filter (`Player.reduce_guesses`), the entropy-based
recommender (`Player._get_entropy`), and the game-over check
(`Board.game_over`).

Words are modelled as lists of characters; the module-level constants
`ANSWER_LIST` / `VALID_LIST` (loaded from CSV data files) appear as
explicit list parameters.  The floating-point Shannon-entropy of a
normalized `[greens, yellows, greys]` distribution is abstracted as a
parameter `ent : Nat → Nat → Nat → ℚ`; every other quantity in the
recommender is exact integer arithmetic and is modelled exactly.
-/

namespace Wordle

/-- Feedback states for one letter position (`constants.LetterState`). -/
inductive LetterState where
  | BLANK
  | NONMATCH
  | RIGHT_SPOT
  | WRONG_SPOT
deriving DecidableEq, Repr

/-- A word is a sequence of characters (Python `str`). -/
abbrev Word := List Char

/-- `constants.WORD_SIZE`. -/
def WORD_SIZE : Nat := 5

/-- Contents of `char_count_guess` after the first pass of
`Board._compare_guess`: for each letter, the number of positions where
guess and secret agree and carry that letter. -/
def rightsCount (g s : Word) (c : Char) : Nat :=
  (g.zip s).countP (fun p => p.1 = p.2 ∧ p.1 = c)

/-- Second pass of `Board._compare_guess`, walking the zipped
guess/secret positions left to right.  A position where guess and
secret agree was marked `RIGHT_SPOT` by the first pass (and its letter
already counted in `cnt`); any other position increments the running
count of its guess letter and is `WRONG_SPOT` when the letter occurs in
the secret and the running count has not exceeded the secret's count of
that letter, else `NONMATCH`. -/
def compare_guess_aux (s : Word) (cnt : Char → Nat) :
    List (Char × Char) → List LetterState
  | [] => []
  | (gl, al) :: rest =>
    if gl = al then
      LetterState.RIGHT_SPOT :: compare_guess_aux s cnt rest
    else
      (if gl ∈ s ∧ cnt gl + 1 ≤ s.count gl then LetterState.WRONG_SPOT
       else LetterState.NONMATCH)
        :: compare_guess_aux s (fun x => if x = gl then cnt gl + 1 else cnt x) rest

/-- `Board._compare_guess`.  The Python state array has `WORD_SIZE`
entries initialized to `BLANK`; positions beyond the zipped range of
guess and secret (empty when both have length `WORD_SIZE`) keep that
initial value. -/
def compare_guess (player_guess actual_word : Word) : List LetterState :=
  compare_guess_aux actual_word (rightsCount player_guess actual_word)
      (player_guess.zip actual_word)
    ++ List.replicate (WORD_SIZE - min player_guess.length actual_word.length)
      LetterState.BLANK

/-- `match_letters` in `Player.reduce_guesses`: the guess letters whose
state is not `NONMATCH`, in position order (with multiplicity). -/
def match_letters (word : Word) (states : List LetterState) : List Char :=
  ((word.zip states).filter (fun p => p.2 ≠ LetterState.NONMATCH)).map Prod.fst

/-- `nonmatch_letters` in `Player.reduce_guesses`. -/
def nonmatch_letters (word : Word) (states : List LetterState) : List Char :=
  ((word.zip states).filter (fun p => p.2 = LetterState.NONMATCH)).map Prod.fst

/-- The three elimination loops of `Player.reduce_guesses`, as the
condition under which `possible_word` gets its index into `remove_idxs`.
Iterating the `matchletters` / `nonmatchletters` dicts is iterating the
distinct letters of the corresponding lists; since the loop bodies
depend only on the letter, `any` over the (possibly repeating) letter
lists is the same condition.  The dict values `matchletters[l]` and
`nonmatchletters[l]` are the letter counts of the lists. -/
def remove_word (word : Word) (states : List LetterState) (possible_word : Word) :
    Bool :=
  (match_letters word states).any (fun ml =>
      possible_word.count ml < (match_letters word states).count ml
      ∨ (ml ∈ nonmatch_letters word states
          ∧ (match_letters word states).count ml < possible_word.count ml))
  || (nonmatch_letters word states).any (fun nml =>
      nml ∉ match_letters word states ∧ 0 < possible_word.count nml)
  || ((word.zip states).zip possible_word).any (fun q =>
      (q.1.2 = LetterState.NONMATCH ∧ q.1.1 ∈ possible_word
          ∧ word.count q.1.1 = 1)
      ∨ (q.1.2 = LetterState.WRONG_SPOT ∧ q.1.1 = q.2)
      ∨ (q.1.2 = LetterState.WRONG_SPOT ∧ q.1.1 ∉ possible_word)
      ∨ (q.1.2 = LetterState.RIGHT_SPOT ∧ q.1.1 ≠ q.2))

/-- `Player.reduce_guesses`: keep the corpus entries whose index was
never appended to `remove_idxs`, i.e. those firing none of the
elimination rules. -/
def reduce_guesses (corpus : List Word) (word : Word)
    (states : List LetterState) : List Word :=
  corpus.filter (fun possible_word => !remove_word word states possible_word)

/-- Maximum of a list of scores, as computed over a nonempty list
(`np.array(...).argmax()` compares against this running maximum). -/
def listMax : List ℚ → ℚ
  | [] => 0
  | x :: xs => xs.foldl max x

/-- Index of the first occurrence of the maximal score, the semantics of
`np.argmax` on the `diff_entropies` array. -/
def argmaxIdx : List ℚ → Nat
  | [] => 0
  | [_] => 0
  | x :: y :: ys =>
    if listMax (y :: ys) ≤ x then 0 else argmaxIdx (y :: ys) + 1

/-- `has_char_in_pos[char]` in `Player._get_entropy`: for each position
index, how many corpus words carry `char` there.  Corpus words all have
length `WORD_SIZE`, so the `' '` default of `getD` is never consulted. -/
def has_char_in_pos (corpus : List Word) (char : Char) : List Nat :=
  (List.range WORD_SIZE).map
    (fun idx => corpus.countP (fun word => word.getD idx ' ' = char))

/-- The per-word score accumulated into `diff_entropies` by
`Player._get_entropy`: for each position of `word`, the green / yellow /
grey counts against the corpus, fed to the (abstracted) normalized
Shannon entropy `ent`. -/
def diff_entropy (ent : Nat → Nat → Nat → ℚ) (corpus : List Word)
    (word : Word) : ℚ :=
  (word.enum.map (fun p =>
    ent ((has_char_in_pos corpus p.2).getD p.1 0)
      ((has_char_in_pos corpus p.2).sum - (has_char_in_pos corpus p.2).getD p.1 0)
      (corpus.length * WORD_SIZE
        - (has_char_in_pos corpus p.2).getD p.1 0
        - ((has_char_in_pos corpus p.2).sum
            - (has_char_in_pos corpus p.2).getD p.1 0)))).sum

/-- `use_words` in `Player._get_entropy`: the candidate pool that is
scored, either the current corpus (final turn) or the module constant
`ANSWER_LIST` (here an explicit parameter). -/
def use_words (corpus answer_list : List Word) (last_word : Bool) : List Word :=
  if last_word then corpus else answer_list

/-- Message of the `ValueError` raised on an empty corpus. -/
def emptyCorpusMsg : String := "No valid words left!"

/-- `Player._get_entropy`.  Raising `ValueError` is modelled as
`Except.error`; the rest mirrors the source: empty corpus fails, a
corpus of size 1 or 2 short-circuits to its first member, otherwise the
pool word at the `argmax` of the accumulated scores is returned. -/
def get_entropy (ent : Nat → Nat → Nat → ℚ) (corpus answer_list : List Word)
    (last_word : Bool) : Except String Word :=
  if corpus.length = 0 then Except.error emptyCorpusMsg
  else if corpus.length = 1 ∨ corpus.length = 2 then Except.ok (corpus.getD 0 [])
  else
    Except.ok ((use_words corpus answer_list last_word).getD
      (argmaxIdx ((use_words corpus answer_list last_word).map
        (diff_entropy ent corpus)))
      [])

/-- `Player.recommend_guess`: calls `_get_entropy` and prints the
result; an error propagates to the caller unchanged. -/
def recommend_guess (ent : Nat → Nat → Nat → ℚ) (corpus answer_list : List Word)
    (last_word : Bool) : Except String Unit :=
  (get_entropy ent corpus answer_list last_word).map (fun _ => ())

/-- The `Board` dataclass fields that `game_over` / `reset` touch. -/
structure Board where
  max_turns : Nat
  actual_word : Option Word
  state : List (List LetterState)
  guess_word_list : List Word

/-- `Board.reset`: blank state grid and empty guess strings; the other
fields are untouched. -/
def Board.reset (b : Board) : Board :=
  { b with
    state := List.replicate b.max_turns
      (List.replicate WORD_SIZE LetterState.BLANK)
    guess_word_list := List.replicate b.max_turns [] }

/-- `Board.game_over`: true (and the board is reset) exactly when the
stored actual word equals the guess; `None == player_guess` is `False`
in Python, so a missing actual word never ends the game. -/
def Board.game_over (b : Board) (player_guess : Word) : Bool × Board :=
  if b.actual_word = some player_guess then (true, b.reset) else (false, b)

/-! ### Counting infrastructure for the soundness proof

`z` ranges over the zipped guess/secret positions, and the lists
`z.zip out` pair each position with the state assigned to it by
`compare_guess_aux`. -/

/-- Exact-match positions carrying guess letter `c`. -/
def exCnt (c : Char) : List (Char × Char) → Nat
  | [] => 0
  | p :: z => (if p.1 = p.2 ∧ p.1 = c then 1 else 0) + exCnt c z

/-- Non-exact positions carrying guess letter `c`. -/
def neCnt (c : Char) : List (Char × Char) → Nat
  | [] => 0
  | p :: z => (if ¬p.1 = p.2 ∧ p.1 = c then 1 else 0) + neCnt c z

/-- Positions carrying guess letter `c`. -/
def lCnt (c : Char) : List (Char × Char) → Nat
  | [] => 0
  | p :: z => (if p.1 = c then 1 else 0) + lCnt c z

/-- Positions of letter `c` marked `WRONG_SPOT`. -/
def wCnt (c : Char) : List ((Char × Char) × LetterState) → Nat
  | [] => 0
  | q :: l => (if q.1.1 = c ∧ q.2 = LetterState.WRONG_SPOT then 1 else 0) + wCnt c l

/-- Positions of letter `c` marked `RIGHT_SPOT`. -/
def rCnt (c : Char) : List ((Char × Char) × LetterState) → Nat
  | [] => 0
  | q :: l => (if q.1.1 = c ∧ q.2 = LetterState.RIGHT_SPOT then 1 else 0) + rCnt c l

/-- Positions of letter `c` marked `NONMATCH`. -/
def nmCnt (c : Char) : List ((Char × Char) × LetterState) → Nat
  | [] => 0
  | q :: l => (if q.1.1 = c ∧ q.2 = LetterState.NONMATCH then 1 else 0) + nmCnt c l

/-- Positions of letter `c` whose mark is not `NONMATCH` (the "matched"
occurrences of `c`). -/
def mCnt (c : Char) : List ((Char × Char) × LetterState) → Nat
  | [] => 0
  | q :: l => (if q.1.1 = c ∧ ¬q.2 = LetterState.NONMATCH then 1 else 0) + mCnt c l

theorem compare_guess_aux_length (s : Word) (z : List (Char × Char)) :
    ∀ cnt : Char → Nat, (compare_guess_aux s cnt z).length = z.length := by
  induction z with
  | nil => intro cnt; simp [compare_guess_aux]
  | cons p z ih =>
    intro cnt
    obtain ⟨gl, al⟩ := p
    by_cases h : gl = al <;>
      simp [compare_guess_aux, h, ih]

theorem mem_zip_compare_guess_aux (s : Word) (z : List (Char × Char)) :
    ∀ (cnt : Char → Nat) (q : (Char × Char) × LetterState),
      q ∈ z.zip (compare_guess_aux s cnt z) →
      (q.2 = LetterState.RIGHT_SPOT ↔ q.1.1 = q.1.2)
      ∧ (q.2 = LetterState.WRONG_SPOT → q.1.1 ∈ s ∧ ¬q.1.1 = q.1.2)
      ∧ ¬q.2 = LetterState.BLANK := by
  induction z with
  | nil => intro cnt q hq; simp [compare_guess_aux] at hq
  | cons p z ih =>
    intro cnt q hq
    obtain ⟨gl, al⟩ := p
    by_cases h : gl = al
    · simp only [compare_guess_aux, if_pos h, List.zip_cons_cons,
        List.mem_cons] at hq
      rcases hq with rfl | hq'
      · exact ⟨by simp [h], by simp, by simp⟩
      · exact ih _ _ hq'
    · simp only [compare_guess_aux, if_neg h, List.zip_cons_cons,
        List.mem_cons] at hq
      by_cases hcond : gl ∈ s ∧ cnt gl + 1 ≤ s.count gl
      · rw [if_pos hcond] at hq
        rcases hq with rfl | hq'
        · exact ⟨by simp [h], fun _ => ⟨hcond.1, h⟩, by simp⟩
        · exact ih _ _ hq'
      · rw [if_neg hcond] at hq
        rcases hq with rfl | hq'
        · exact ⟨by simp [h], by simp, by simp⟩
        · exact ih _ _ hq'

theorem wCnt_compare_guess_aux (s : Word) (z : List (Char × Char)) :
    ∀ (cnt : Char → Nat) (c : Char),
      wCnt c (z.zip (compare_guess_aux s cnt z))
        = if c ∈ s then min (neCnt c z) (s.count c - cnt c) else 0 := by
  induction z with
  | nil =>
    intro cnt c
    simp [compare_guess_aux, wCnt, neCnt]
  | cons p z ih =>
    intro cnt c
    obtain ⟨gl, al⟩ := p
    by_cases h : gl = al
    · simp only [compare_guess_aux, if_pos h, List.zip_cons_cons]
      have hne : neCnt c ((gl, al) :: z) = neCnt c z := by
        simp [neCnt, List.countP_cons, h]
      rw [hne]
      have hw : wCnt c (((gl, al), LetterState.RIGHT_SPOT)
          :: z.zip (compare_guess_aux s cnt z))
          = wCnt c (z.zip (compare_guess_aux s cnt z)) := by
        simp [wCnt, List.countP_cons]
      rw [hw, ih]
    · simp only [compare_guess_aux, if_neg h, List.zip_cons_cons]
      by_cases hc : gl = c
      · subst hc
        have ihgl := ih (fun x => if x = gl then cnt gl + 1 else cnt x) gl
        rw [if_pos (rfl : gl = gl)] at ihgl
        have hne : neCnt gl ((gl, al) :: z) = neCnt gl z + 1 := by
          simp [neCnt, List.countP_cons, h] <;> omega
        by_cases hcond : gl ∈ s ∧ cnt gl + 1 ≤ s.count gl
        · rw [if_pos hcond]
          have hw : wCnt gl (((gl, al), LetterState.WRONG_SPOT)
              :: z.zip (compare_guess_aux s
                (fun x => if x = gl then cnt gl + 1 else cnt x) z))
              = wCnt gl (z.zip (compare_guess_aux s
                (fun x => if x = gl then cnt gl + 1 else cnt x) z)) + 1 := by
            simp [wCnt, List.countP_cons] <;> omega
          rw [hw, hne, if_pos hcond.1]
          rw [if_pos hcond.1] at ihgl
          have := hcond.2
          omega
        · rw [if_neg hcond]
          have hw : wCnt gl (((gl, al), LetterState.NONMATCH)
              :: z.zip (compare_guess_aux s
                (fun x => if x = gl then cnt gl + 1 else cnt x) z))
              = wCnt gl (z.zip (compare_guess_aux s
                (fun x => if x = gl then cnt gl + 1 else cnt x) z)) := by
            simp [wCnt, List.countP_cons]
          rw [hw, hne]
          by_cases hs : gl ∈ s
          · rw [if_pos hs]
            rw [if_pos hs] at ihgl
            have hnle : ¬cnt gl + 1 ≤ s.count gl := fun hle => hcond ⟨hs, hle⟩
            omega
          · rw [if_neg hs]
            rw [if_neg hs] at ihgl
            exact ihgl
      · have ihc := ih (fun x => if x = gl then cnt gl + 1 else cnt x) c
        rw [if_neg (Ne.symm hc)] at ihc
        have hne : neCnt c ((gl, al) :: z) = neCnt c z := by
          simp [neCnt, List.countP_cons, hc]
        have hw : wCnt c (((gl, al),
            if gl ∈ s ∧ cnt gl + 1 ≤ s.count gl then LetterState.WRONG_SPOT
            else LetterState.NONMATCH)
            :: z.zip (compare_guess_aux s
              (fun x => if x = gl then cnt gl + 1 else cnt x) z))
            = wCnt c (z.zip (compare_guess_aux s
              (fun x => if x = gl then cnt gl + 1 else cnt x) z)) := by
          simp [wCnt, List.countP_cons, hc]
        rw [hw, hne, ihc]

theorem rCnt_compare_guess_aux (s : Word) (z : List (Char × Char)) :
    ∀ (cnt : Char → Nat) (c : Char),
      rCnt c (z.zip (compare_guess_aux s cnt z)) = exCnt c z := by
  induction z with
  | nil => intro cnt c; simp [compare_guess_aux, rCnt, exCnt]
  | cons p z ih =>
    intro cnt c
    obtain ⟨gl, al⟩ := p
    by_cases h : gl = al
    · simp only [compare_guess_aux, if_pos h, List.zip_cons_cons]
      by_cases hc : gl = c
      · subst hc
        have hr : rCnt gl (((gl, al), LetterState.RIGHT_SPOT)
            :: z.zip (compare_guess_aux s cnt z))
            = rCnt gl (z.zip (compare_guess_aux s cnt z)) + 1 := by
          simp [rCnt, List.countP_cons] <;> omega
        have hx : exCnt gl ((gl, al) :: z) = exCnt gl z + 1 := by
          simp [exCnt, List.countP_cons, h] <;> omega
        rw [hr, hx, ih]
      · have hr : rCnt c (((gl, al), LetterState.RIGHT_SPOT)
            :: z.zip (compare_guess_aux s cnt z))
            = rCnt c (z.zip (compare_guess_aux s cnt z)) := by
          simp [rCnt, List.countP_cons, hc]
        have hx : exCnt c ((gl, al) :: z) = exCnt c z := by
          simp [exCnt, List.countP_cons, hc]
        rw [hr, hx, ih]
    · simp only [compare_guess_aux, if_neg h, List.zip_cons_cons]
      have hr : rCnt c (((gl, al),
          if gl ∈ s ∧ cnt gl + 1 ≤ s.count gl then LetterState.WRONG_SPOT
          else LetterState.NONMATCH)
          :: z.zip (compare_guess_aux s
            (fun x => if x = gl then cnt gl + 1 else cnt x) z))
          = rCnt c (z.zip (compare_guess_aux s
            (fun x => if x = gl then cnt gl + 1 else cnt x) z)) := by
        by_cases hcond : gl ∈ s ∧ cnt gl + 1 ≤ s.count gl <;>
          simp [rCnt, List.countP_cons, hcond]
      have hx : exCnt c ((gl, al) :: z) = exCnt c z := by
        simp [exCnt, List.countP_cons, h]
      rw [hr, hx, ih]

theorem mCnt_eq_rCnt_add_wCnt (c : Char) :
    ∀ l : List ((Char × Char) × LetterState),
      (∀ q ∈ l, ¬q.2 = LetterState.BLANK) →
      mCnt c l = rCnt c l + wCnt c l := by
  intro l
  induction l with
  | nil => intro _; simp [mCnt, rCnt, wCnt]
  | cons q l ih =>
    intro hb
    have hq := hb q (List.mem_cons_self q l)
    have hl : ∀ r ∈ l, ¬r.2 = LetterState.BLANK :=
      fun r hr => hb r (List.mem_cons_of_mem q hr)
    have ihl := ih hl
    simp only [mCnt, rCnt, wCnt]
    by_cases hc : q.1.1 = c
    · cases hst : q.2 with
      | BLANK => exact absurd hst hq
      | NONMATCH => simp [hc, hst] <;> omega
      | RIGHT_SPOT => simp [hc, hst] <;> omega
      | WRONG_SPOT => simp [hc, hst] <;> omega
    · simp [hc] <;> omega

theorem mCnt_add_nmCnt (c : Char) (z : List (Char × Char)) :
    ∀ out : List LetterState, out.length = z.length →
      mCnt c (z.zip out) + nmCnt c (z.zip out) = lCnt c z := by
  induction z with
  | nil => intro out _; simp [mCnt, nmCnt, lCnt]
  | cons p z ih =>
    intro out hlen
    cases out with
    | nil => simp at hlen
    | cons st out =>
      have hlen' : out.length = z.length := by simpa using hlen
      have ihl := ih out hlen'
      rw [List.zip_cons_cons]
      simp only [mCnt, nmCnt, lCnt]
      by_cases hc : p.1 = c
      · by_cases hst : st = LetterState.NONMATCH <;>
          simp [hc, hst] <;> omega
      · simp [hc] <;> omega

theorem exCnt_add_neCnt (c : Char) (z : List (Char × Char)) :
    exCnt c z + neCnt c z = lCnt c z := by
  induction z with
  | nil => simp [exCnt, neCnt, lCnt]
  | cons p z ih =>
    simp only [exCnt, neCnt, lCnt]
    by_cases he : p.1 = p.2 <;> by_cases hc : p.1 = c
    · rw [if_pos (⟨he, hc⟩ : p.1 = p.2 ∧ p.1 = c),
        if_neg (fun hand : ¬p.1 = p.2 ∧ p.1 = c => hand.1 he), if_pos hc]
      omega
    · rw [if_neg (fun hand : p.1 = p.2 ∧ p.1 = c => hc hand.2),
        if_neg (fun hand : ¬p.1 = p.2 ∧ p.1 = c => hc hand.2), if_neg hc]
      omega
    · rw [if_neg (fun hand : p.1 = p.2 ∧ p.1 = c => he hand.1),
        if_pos (⟨he, hc⟩ : ¬p.1 = p.2 ∧ p.1 = c), if_pos hc]
      omega
    · rw [if_neg (fun hand : p.1 = p.2 ∧ p.1 = c => hc hand.2),
        if_neg (fun hand : ¬p.1 = p.2 ∧ p.1 = c => hc hand.2), if_neg hc]
      omega

theorem exCnt_le_count_snd (c : Char) (z : List (Char × Char)) :
    exCnt c z ≤ (z.map Prod.snd).count c := by
  induction z with
  | nil => simp [exCnt]
  | cons p z ih =>
    simp only [exCnt]
    rw [List.map_cons, List.count_cons]
    by_cases he : p.1 = p.2 ∧ p.1 = c
    · have hbe : p.2 = c := by rw [← he.1]; exact he.2
      simp [he, hbe] <;> omega
    · simp only [he, if_false]
      by_cases hbe : p.2 = c <;> simp [hbe] <;> omega

theorem lCnt_eq_count_fst (c : Char) (z : List (Char × Char)) :
    lCnt c z = (z.map Prod.fst).count c := by
  induction z with
  | nil => simp [lCnt]
  | cons p z ih =>
    simp only [lCnt]
    rw [List.map_cons, List.count_cons]
    by_cases hc : p.1 = c <;> simp [hc] <;> omega

theorem zip_zip_left {α β γ : Type} :
    ∀ (g : List α) (s : List β) (out : List γ), g.length = s.length →
      g.zip out = ((g.zip s).zip out).map (fun q => (q.1.1, q.2))
  | [], [], _, _ => by simp
  | [], _ :: _, _, h => by simp at h
  | _ :: _, [], _, h => by simp at h
  | _ :: _, _ :: _, [], _ => by simp
  | a :: g, b :: s, cc :: out, h => by
    simp only [List.zip_cons_cons, List.map_cons]
    exact congrArg _ (zip_zip_left g s out (by simpa using h))

theorem zip_zip_middle {α β γ : Type} :
    ∀ (g : List α) (s : List β) (out : List γ), g.length = s.length →
      (g.zip out).zip s
        = ((g.zip s).zip out).map (fun q => ((q.1.1, q.2), q.1.2))
  | [], [], _, _ => by simp
  | [], _ :: _, _, h => by simp at h
  | _ :: _, [], _, h => by simp at h
  | _ :: _, _ :: _, [], _ => by simp
  | a :: g, b :: s, cc :: out, h => by
    simp only [List.zip_cons_cons, List.map_cons]
    exact congrArg _ (zip_zip_middle g s out (by simpa using h))

/-- Matched occurrences of `c` in a letter/state pair list. -/
def mCnt2 (c : Char) : List (Char × LetterState) → Nat
  | [] => 0
  | p :: l => (if p.1 = c ∧ ¬p.2 = LetterState.NONMATCH then 1 else 0) + mCnt2 c l

/-- `NONMATCH` occurrences of `c` in a letter/state pair list. -/
def nmCnt2 (c : Char) : List (Char × LetterState) → Nat
  | [] => 0
  | p :: l => (if p.1 = c ∧ p.2 = LetterState.NONMATCH then 1 else 0) + nmCnt2 c l

theorem count_match_letters (c : Char) (w : Word) (st : List LetterState) :
    (match_letters w st).count c = mCnt2 c (w.zip st) := by
  unfold match_letters
  generalize w.zip st = l
  induction l with
  | nil => simp [mCnt2]
  | cons p l ih =>
    rw [List.filter_cons]
    by_cases hst : p.2 = LetterState.NONMATCH
    · rw [if_neg (by simp [hst])]
      rw [ih]
      simp only [mCnt2]
      rw [if_neg (fun hand : p.1 = c ∧ ¬p.2 = LetterState.NONMATCH => hand.2 hst)]
      omega
    · rw [if_pos (by simp [hst])]
      rw [List.map_cons, List.count_cons, ih]
      simp only [mCnt2]
      by_cases hc : p.1 = c <;> simp [hc, hst] <;> omega

theorem count_nonmatch_letters (c : Char) (w : Word) (st : List LetterState) :
    (nonmatch_letters w st).count c = nmCnt2 c (w.zip st) := by
  unfold nonmatch_letters
  generalize w.zip st = l
  induction l with
  | nil => simp [nmCnt2]
  | cons p l ih =>
    rw [List.filter_cons]
    by_cases hst : p.2 = LetterState.NONMATCH
    · rw [if_pos (by simp [hst])]
      rw [List.map_cons, List.count_cons, ih]
      simp only [nmCnt2]
      by_cases hc : p.1 = c <;> simp [hc, hst] <;> omega
    · rw [if_neg (by simp [hst])]
      rw [ih]
      simp only [nmCnt2]
      rw [if_neg (fun hand : p.1 = c ∧ p.2 = LetterState.NONMATCH => hst hand.2)]
      omega

theorem mCnt2_map (c : Char) :
    ∀ l : List ((Char × Char) × LetterState),
      mCnt2 c (l.map (fun q => (q.1.1, q.2))) = mCnt c l := by
  intro l
  induction l with
  | nil => simp [mCnt2, mCnt]
  | cons q l ih => simp only [List.map_cons, mCnt2, mCnt, ih]

theorem nmCnt2_map (c : Char) :
    ∀ l : List ((Char × Char) × LetterState),
      nmCnt2 c (l.map (fun q => (q.1.1, q.2))) = nmCnt c l := by
  intro l
  induction l with
  | nil => simp [nmCnt2, nmCnt]
  | cons q l ih => simp only [List.map_cons, nmCnt2, nmCnt, ih]

theorem nmCnt_pos_of_mem (c : Char) :
    ∀ (l : List ((Char × Char) × LetterState)) (r : (Char × Char) × LetterState),
      r ∈ l → r.1.1 = c → r.2 = LetterState.NONMATCH → 0 < nmCnt c l := by
  intro l
  induction l with
  | nil => intro r hr; simp at hr
  | cons q l ih =>
    intro r hr hc hst
    rcases List.mem_cons.mp hr with rfl | hr'
    · simp only [nmCnt]
      rw [if_pos ⟨hc, hst⟩]
      omega
    · simp only [nmCnt]
      have := ih r hr' hc hst
      omega

theorem rightsCount_eq_exCnt (g s : Word) (c : Char) :
    rightsCount g s c = exCnt c (g.zip s) := by
  unfold rightsCount
  generalize g.zip s = z
  induction z with
  | nil => simp [exCnt]
  | cons p z ih =>
    rw [List.countP_cons, ih]
    simp only [exCnt]
    by_cases hx : p.1 = p.2 ∧ p.1 = c
    · rw [if_pos hx, if_pos (by simp only [decide_eq_true_eq]; exact hx :
        decide (p.1 = p.2 ∧ p.1 = c) = true)]
      omega
    · rw [if_neg hx, if_neg (by simp only [decide_eq_true_eq]; exact hx :
        ¬decide (p.1 = p.2 ∧ p.1 = c) = true)]
      omega

theorem secret_letter_facts (g s : Word) (h : g.length = s.length) (c : Char) :
    mCnt c ((g.zip s).zip (compare_guess_aux s (rightsCount g s) (g.zip s)))
      ≤ s.count c
    ∧ (0 < nmCnt c ((g.zip s).zip (compare_guess_aux s (rightsCount g s) (g.zip s)))
        → c ∈ s
        → mCnt c ((g.zip s).zip (compare_guess_aux s (rightsCount g s) (g.zip s)))
          = s.count c)
    ∧ (0 < mCnt c ((g.zip s).zip (compare_guess_aux s (rightsCount g s) (g.zip s)))
        → c ∈ s) := by
  have hlen : (compare_guess_aux s (rightsCount g s) (g.zip s)).length
      = (g.zip s).length := compare_guess_aux_length s (g.zip s) _
  have hno : ∀ q ∈ (g.zip s).zip (compare_guess_aux s (rightsCount g s) (g.zip s)),
      ¬q.2 = LetterState.BLANK :=
    fun q hq => (mem_zip_compare_guess_aux s (g.zip s) _ q hq).2.2
  have hm := mCnt_eq_rCnt_add_wCnt c _ hno
  have hw := wCnt_compare_guess_aux s (g.zip s) (rightsCount g s) c
  have hr := rCnt_compare_guess_aux s (g.zip s) (rightsCount g s) c
  have htot := mCnt_add_nmCnt c (g.zip s) _ hlen
  have hexne := exCnt_add_neCnt c (g.zip s)
  have hexle : exCnt c (g.zip s) ≤ s.count c := by
    have h2 := exCnt_le_count_snd c (g.zip s)
    rwa [List.map_snd_zip g s (le_of_eq h.symm)] at h2
  rw [rightsCount_eq_exCnt g s c] at hw
  by_cases hs : c ∈ s
  · rw [if_pos hs] at hw
    have hpos : 0 < s.count c := List.count_pos_iff.mpr hs
    exact ⟨by omega, fun hnm _ => by omega, fun _ => hs⟩
  · rw [if_neg hs] at hw
    have hzero : s.count c = 0 := List.count_eq_zero.mpr hs
    exact ⟨by omega, fun _ hcs => absurd hcs hs,
      fun hmpos => absurd hmpos (by omega)⟩
end Wordle
namespace Wordle
theorem remove_word_secret (g s : Word) (h : g.length = s.length) :
    remove_word g (compare_guess_aux s (rightsCount g s) (g.zip s)) s = false := by
  rw [Bool.eq_false_iff]
  intro hcontra
  simp only [remove_word, Bool.or_eq_true, List.any_eq_true,
    decide_eq_true_eq] at hcontra
  rcases hcontra with (⟨ml, hml, hcond⟩ | ⟨nml, hnml, hcond⟩) | ⟨q, hq, hcond⟩
  · have hbr : (match_letters g
        (compare_guess_aux s (rightsCount g s) (g.zip s))).count ml
        = mCnt ml ((g.zip s).zip
          (compare_guess_aux s (rightsCount g s) (g.zip s))) := by
      rw [count_match_letters, zip_zip_left g s _ h, mCnt2_map]
    have hbrn : (nonmatch_letters g
        (compare_guess_aux s (rightsCount g s) (g.zip s))).count ml
        = nmCnt ml ((g.zip s).zip
          (compare_guess_aux s (rightsCount g s) (g.zip s))) := by
      rw [count_nonmatch_letters, zip_zip_left g s _ h, nmCnt2_map]
    have hfacts := secret_letter_facts g s h ml
    have h1 := hfacts.1
    have hmlpos : 0 < mCnt ml ((g.zip s).zip
        (compare_guess_aux s (rightsCount g s) (g.zip s))) := by
      rw [← hbr]
      exact List.count_pos_iff.mpr hml
    rcases hcond with hlt | ⟨hmlnm, hgt⟩
    · rw [hbr] at hlt
      omega
    · have hnmpos : 0 < nmCnt ml ((g.zip s).zip
          (compare_guess_aux s (rightsCount g s) (g.zip s))) := by
        rw [← hbrn]
        exact List.count_pos_iff.mpr hmlnm
      have heq := hfacts.2.1 hnmpos (hfacts.2.2 hmlpos)
      rw [hbr] at hgt
      omega
  · have hbr : (match_letters g
        (compare_guess_aux s (rightsCount g s) (g.zip s))).count nml
        = mCnt nml ((g.zip s).zip
          (compare_guess_aux s (rightsCount g s) (g.zip s))) := by
      rw [count_match_letters, zip_zip_left g s _ h, mCnt2_map]
    have hbrn : (nonmatch_letters g
        (compare_guess_aux s (rightsCount g s) (g.zip s))).count nml
        = nmCnt nml ((g.zip s).zip
          (compare_guess_aux s (rightsCount g s) (g.zip s))) := by
      rw [count_nonmatch_letters, zip_zip_left g s _ h, nmCnt2_map]
    have hfacts := secret_letter_facts g s h nml
    have hnmpos : 0 < nmCnt nml ((g.zip s).zip
        (compare_guess_aux s (rightsCount g s) (g.zip s))) := by
      rw [← hbrn]
      exact List.count_pos_iff.mpr hnml
    have hmzero : mCnt nml ((g.zip s).zip
        (compare_guess_aux s (rightsCount g s) (g.zip s))) = 0 := by
      rw [← hbr]
      exact List.count_eq_zero.mpr hcond.1
    have hin : nml ∈ s := List.count_pos_iff.mp hcond.2
    have heq := hfacts.2.1 hnmpos hin
    have hcpos := hcond.2
    omega
  · rw [zip_zip_middle g s _ h] at hq
    obtain ⟨r, hr, rfl⟩ := List.mem_map.mp hq
    have hmemf := mem_zip_compare_guess_aux s (g.zip s) (rightsCount g s) r hr
    rcases hcond with ⟨hst, hin, hcnt1⟩ | ⟨hst, heq⟩ | ⟨hst, hnin⟩ | ⟨hst, hne⟩
    · have hnmpos := nmCnt_pos_of_mem r.1.1 _ r hr rfl hst
      have hfacts := secret_letter_facts g s h r.1.1
      have htot := mCnt_add_nmCnt r.1.1 (g.zip s)
        (compare_guess_aux s (rightsCount g s) (g.zip s))
        (compare_guess_aux_length s (g.zip s) (rightsCount g s))
      have hl : lCnt r.1.1 (g.zip s) = 1 := by
        rw [lCnt_eq_count_fst, List.map_fst_zip g s (le_of_eq h)]
        exact hcnt1
      have hcpos : 0 < s.count r.1.1 := List.count_pos_iff.mpr hin
      have heq := hfacts.2.1 hnmpos hin
      omega
    · exact absurd heq (hmemf.2.1 hst).2
    · exact absurd (hmemf.2.1 hst).1 hnin
    · exact absurd (hmemf.1.mp hst) hne

theorem compare_guess_eq_aux (g s : Word) (hg : g.length = WORD_SIZE)
    (hs : s.length = WORD_SIZE) :
    compare_guess g s
      = compare_guess_aux s (rightsCount g s) (g.zip s) := by
  unfold compare_guess
  rw [hg, hs]
  simp

theorem compare_guess_aux_self (s' : Word) (cnt : Char → Nat) :
    ∀ l : Word, compare_guess_aux s' cnt (l.zip l)
      = List.replicate l.length LetterState.RIGHT_SPOT := by
  intro l
  induction l with
  | nil => simp [compare_guess_aux]
  | cons a l ih =>
    rw [List.zip_cons_cons]
    simp only [compare_guess_aux, if_pos (rfl : a = a)]
    rw [ih]
    simp [List.replicate_succ]

/-- C8: for every pair of words of the configured length, `_compare_guess`
returns exactly `WORD_SIZE` states, none of them `BLANK`; position `i` is
`RIGHT_SPOT` iff the guess and secret letters at `i` agree; and comparing a
word with itself yields all `RIGHT_SPOT`. -/
theorem compare_guess_wellformed (g s : Word) (hg : g.length = WORD_SIZE)
    (hs : s.length = WORD_SIZE) :
    (compare_guess g s).length = WORD_SIZE
    ∧ (∀ st ∈ compare_guess g s, st ≠ LetterState.BLANK)
    ∧ (∀ i, i < WORD_SIZE →
        ((compare_guess g s).getD i LetterState.BLANK = LetterState.RIGHT_SPOT
          ↔ g.getD i ' ' = s.getD i ' '))
    ∧ compare_guess s s = List.replicate WORD_SIZE LetterState.RIGHT_SPOT := by
  have L := compare_guess_aux_length s (g.zip s) (rightsCount g s)
  have hzlen : (g.zip s).length = WORD_SIZE := by
    rw [List.length_zip, hg, hs]
    exact Nat.min_self _
  refine ⟨?_, ?_, ?_, ?_⟩
  · rw [compare_guess_eq_aux g s hg hs, L, hzlen]
  · intro st hst
    rw [compare_guess_eq_aux g s hg hs] at hst
    obtain ⟨i, hi, rfl⟩ := List.mem_iff_getElem.mp hst
    have hiz : i < ((g.zip s).zip
        (compare_guess_aux s (rightsCount g s) (g.zip s))).length := by
      rw [List.length_zip]
      omega
    have hmm := mem_zip_compare_guess_aux s (g.zip s) (rightsCount g s)
      (((g.zip s).zip (compare_guess_aux s (rightsCount g s) (g.zip s))).get
        ⟨i, hiz⟩)
      (List.get_mem _ _ hiz)
    rw [List.get_eq_getElem, List.getElem_zip] at hmm
    exact hmm.2.2
  · intro i hiw
    rw [compare_guess_eq_aux g s hg hs]
    have hio : i < (compare_guess_aux s (rightsCount g s) (g.zip s)).length := by
      omega
    have hig : i < g.length := by omega
    have his : i < s.length := by omega
    rw [List.getD_eq_getElem _ _ hio, List.getD_eq_getElem _ _ hig,
      List.getD_eq_getElem _ _ his]
    have hiz : i < ((g.zip s).zip
        (compare_guess_aux s (rightsCount g s) (g.zip s))).length := by
      rw [List.length_zip]
      omega
    have hmm := mem_zip_compare_guess_aux s (g.zip s) (rightsCount g s)
      (((g.zip s).zip (compare_guess_aux s (rightsCount g s) (g.zip s))).get
        ⟨i, hiz⟩)
      (List.get_mem _ _ hiz)
    rw [List.get_eq_getElem, List.getElem_zip, List.getElem_zip] at hmm
    exact hmm.1
  · rw [compare_guess_eq_aux s s hs hs, compare_guess_aux_self, hs]

/-- C1: soundness of filtering.  For every corpus, secret `s` in the corpus
and guess `g` of the configured word length, reducing the corpus with `g` and
the feedback `_compare_guess(g, s)` keeps `s` in the corpus. -/
theorem reduce_guesses_sound (corpus : List Word) (g s : Word)
    (hg : g.length = WORD_SIZE) (hs : s.length = WORD_SIZE)
    (hmem : s ∈ corpus) :
    s ∈ reduce_guesses corpus g (compare_guess g s) := by
  unfold reduce_guesses
  rw [compare_guess_eq_aux g s hg hs]
  refine List.mem_filter.mpr ⟨hmem, ?_⟩
  rw [remove_word_secret g s (by rw [hg, hs])]
  rfl

/-- Witness for C1 at the spec scenario: corpus {crane, trace, place},
secret trace, guess crane. -/
theorem reduce_guesses_sound_witness :
    (['t','r','a','c','e'] : Word).length = WORD_SIZE
    ∧ (['c','r','a','n','e'] : Word).length = WORD_SIZE
    ∧ ['t','r','a','c','e'] ∈
        ([['c','r','a','n','e'], ['t','r','a','c','e'], ['p','l','a','c','e']]
          : List Word)
    ∧ ['t','r','a','c','e'] ∈ reduce_guesses
        [['c','r','a','n','e'], ['t','r','a','c','e'], ['p','l','a','c','e']]
        ['c','r','a','n','e']
        (compare_guess ['c','r','a','n','e'] ['t','r','a','c','e']) :=
  ⟨by decide, by decide, by decide,
    reduce_guesses_sound
      [['c','r','a','n','e'], ['t','r','a','c','e'], ['p','l','a','c','e']]
      ['c','r','a','n','e'] ['t','r','a','c','e']
      (by decide) (by decide) (by decide)⟩

/-- C2: `_compare_guess("enter", "sober")` marks the first `e` (position 0)
`NONMATCH` and the second `e` (position 3) `RIGHT_SPOT`. -/
theorem compare_guess_enter_sober :
    (compare_guess ['e','n','t','e','r'] ['s','o','b','e','r']).getD 0
        LetterState.BLANK = LetterState.NONMATCH
    ∧ (compare_guess ['e','n','t','e','r'] ['s','o','b','e','r']).getD 3
        LetterState.BLANK = LetterState.RIGHT_SPOT := by
  decide

/-- C3 counterexample: `_compare_guess("crane", "trace")` is NOT
`[WRONG_SPOT, WRONG_SPOT, RIGHT_SPOT, NONMATCH, RIGHT_SPOT]` as the claim
asserts: the `r` of "crane" sits at index 1, exactly where "trace" has its
`r`, so the code marks it `RIGHT_SPOT`. -/
theorem compare_guess_crane_trace_counterexample :
    ¬compare_guess ['c','r','a','n','e'] ['t','r','a','c','e']
      = [LetterState.WRONG_SPOT, LetterState.WRONG_SPOT,
         LetterState.RIGHT_SPOT, LetterState.NONMATCH,
         LetterState.RIGHT_SPOT] := by
  decide

/-- C3 amended: `_compare_guess("crane", "trace")` returns
`[WRONG_SPOT, RIGHT_SPOT, RIGHT_SPOT, NONMATCH, RIGHT_SPOT]` — the `r` is a
`RIGHT_SPOT` because both words carry `r` at index 1. -/
theorem compare_guess_crane_trace :
    compare_guess ['c','r','a','n','e'] ['t','r','a','c','e']
      = [LetterState.WRONG_SPOT, LetterState.RIGHT_SPOT,
         LetterState.RIGHT_SPOT, LetterState.NONMATCH,
         LetterState.RIGHT_SPOT] := by
  decide

/-- C7: for every corpus, guess and feedback, `reduce_guesses` returns an
order-preserving subsequence of the corpus, hence of no greater size. -/
theorem reduce_guesses_shrink (corpus : List Word) (word : Word)
    (states : List LetterState) :
    (reduce_guesses corpus word states).Sublist corpus
    ∧ (reduce_guesses corpus word states).length ≤ corpus.length :=
  ⟨List.filter_sublist corpus, (List.filter_sublist corpus).length_le⟩

theorem foldl_max_comm (l : List ℚ) :
    ∀ a b : ℚ, l.foldl max (max a b) = max a (l.foldl max b) := by
  induction l with
  | nil => intro a b; rfl
  | cons c l ih =>
    intro a b
    simp only [List.foldl_cons]
    rw [max_assoc, ih]

theorem listMax_cons (x y : ℚ) (ys : List ℚ) :
    listMax (x :: y :: ys) = max x (listMax (y :: ys)) := by
  simp only [listMax, List.foldl_cons]
  exact foldl_max_comm ys x y

theorem le_listMax_of_mem : ∀ (l : List ℚ) (y : ℚ), y ∈ l → y ≤ listMax l := by
  intro l
  induction l with
  | nil => intro y hy; simp at hy
  | cons x xs ih =>
    intro y hy
    cases xs with
    | nil =>
      simp at hy
      simp [listMax, hy]
    | cons z zs =>
      rw [listMax_cons]
      rcases List.mem_cons.mp hy with rfl | hy'
      · exact le_max_left _ _
      · exact le_trans (ih y hy') (le_max_right _ _)

theorem argmaxIdx_lt_length : ∀ l : List ℚ, l ≠ [] → argmaxIdx l < l.length
  | [], h => absurd rfl h
  | [x], _ => by simp [argmaxIdx]
  | x :: y :: ys, _ => by
    simp only [argmaxIdx]
    split
    · simp
    · have := argmaxIdx_lt_length (y :: ys) (by simp)
      simp only [List.length_cons] at *
      omega

theorem getD_argmaxIdx : ∀ l : List ℚ, l ≠ [] → l.getD (argmaxIdx l) 0 = listMax l
  | [], h => absurd rfl h
  | [x], _ => by simp [argmaxIdx, listMax]
  | x :: y :: ys, _ => by
    rw [listMax_cons]
    simp only [argmaxIdx]
    split
    · rename_i hle
      simp [max_eq_left hle]
    · rename_i hnle
      have hih := getD_argmaxIdx (y :: ys) (by simp)
      have hlt : x < listMax (y :: ys) := lt_of_not_le hnle
      rw [List.getD_cons_succ, hih, max_eq_right (le_of_lt hlt)]

theorem getD_lt_argmaxIdx :
    ∀ l : List ℚ, ∀ i, i < argmaxIdx l →
      l.getD i 0 < l.getD (argmaxIdx l) 0
  | [], i, hi => by simp [argmaxIdx] at hi
  | [x], i, hi => by simp [argmaxIdx] at hi
  | x :: y :: ys, i, hi => by
    rw [getD_argmaxIdx (x :: y :: ys) (by simp), listMax_cons]
    simp only [argmaxIdx] at hi ⊢
    split at hi
    · omega
    · rename_i hnle
      have hlt : x < listMax (y :: ys) := lt_of_not_le hnle
      cases i with
      | zero =>
        rw [List.getD_cons_zero, max_eq_right (le_of_lt hlt)]
        exact hlt
      | succ i' =>
        rw [List.getD_cons_succ, max_eq_right (le_of_lt hlt)]
        have := getD_lt_argmaxIdx (y :: ys) i' (by omega)
        rw [getD_argmaxIdx (y :: ys) (by simp)] at this
        exact this

theorem getD_le_argmaxIdx (l : List ℚ) (hne : l ≠ []) :
    ∀ i, i < l.length → l.getD i 0 ≤ l.getD (argmaxIdx l) 0 := by
  intro i hi
  rw [getD_argmaxIdx l hne]
  apply le_listMax_of_mem
  rw [List.getD_eq_getElem _ _ hi]
  exact List.getElem_mem hi

theorem map_getD_score (f : Word → ℚ) (l : List Word) (i : Nat)
    (hi : i < l.length) :
    (l.map f).getD i 0 = f (l.getD i []) := by
  have hi' : i < (l.map f).length := by
    rw [List.length_map]
    exact hi
  rw [List.getD_eq_getElem _ _ hi', List.getD_eq_getElem _ _ hi,
    List.getElem_map]

theorem get_entropy_ge3 (ent : Nat → Nat → Nat → ℚ)
    (corpus answer_list : List Word) (lw : Bool) (h3 : 3 ≤ corpus.length) :
    get_entropy ent corpus answer_list lw
      = Except.ok ((use_words corpus answer_list lw).getD
          (argmaxIdx ((use_words corpus answer_list lw).map
            (diff_entropy ent corpus))) []) := by
  unfold get_entropy
  rw [if_neg (by omega), if_neg (by omega)]

theorem get_entropy_argmax_spec (ent : Nat → Nat → Nat → ℚ)
    (corpus answer_list : List Word) (lw : Bool) (h3 : 3 ≤ corpus.length)
    (hpool : use_words corpus answer_list lw ≠ []) :
    ∃ j, j < (use_words corpus answer_list lw).length
    ∧ get_entropy ent corpus answer_list lw
        = Except.ok ((use_words corpus answer_list lw).getD j [])
    ∧ (∀ i, i < (use_words corpus answer_list lw).length →
        diff_entropy ent corpus ((use_words corpus answer_list lw).getD i [])
          ≤ diff_entropy ent corpus ((use_words corpus answer_list lw).getD j []))
    ∧ (∀ i, i < j →
        diff_entropy ent corpus ((use_words corpus answer_list lw).getD i [])
          < diff_entropy ent corpus ((use_words corpus answer_list lw).getD j [])) := by
  have hmapne : (use_words corpus answer_list lw).map (diff_entropy ent corpus)
      ≠ [] := by
    simp only [ne_eq, List.map_eq_nil_iff]
    exact hpool
  have hlenmap : ((use_words corpus answer_list lw).map
      (diff_entropy ent corpus)).length
      = (use_words corpus answer_list lw).length := List.length_map _ _
  have hjlt := argmaxIdx_lt_length _ hmapne
  rw [hlenmap] at hjlt
  refine ⟨argmaxIdx ((use_words corpus answer_list lw).map
    (diff_entropy ent corpus)), hjlt, get_entropy_ge3 ent corpus answer_list lw h3,
    ?_, ?_⟩
  · intro i hi
    have h1 := getD_le_argmaxIdx _ hmapne i (by rw [hlenmap]; exact hi)
    rw [map_getD_score _ _ _ hi, map_getD_score _ _ _ hjlt] at h1
    exact h1
  · intro i hij
    have h1 := getD_lt_argmaxIdx
      ((use_words corpus answer_list lw).map (diff_entropy ent corpus)) i hij
    have hi : i < (use_words corpus answer_list lw).length := by omega
    rw [map_getD_score _ _ _ hi, map_getD_score _ _ _ hjlt] at h1
    exact h1

/-- Score function used in concrete recommender scenarios: rewards a
green count of exactly 1. -/
def entC4 : Nat → Nat → Nat → ℚ :=
  fun num_greens _ _ => if num_greens = 1 then 10 else 0

/-- Concrete answers vocabulary for recommender scenarios. -/
def answers0 : List Word :=
  [['a','a','a','a','a'], ['a','a','b','b','b'], ['b','b','b','b','b']]

/-- Concrete full valid-guess vocabulary: the extra word "bbaaa" plus
`answers0`, mirroring `VALID_LIST = wordle_list + ANSWER_LIST`. -/
def valid0 : List Word := ['b','b','a','a','a'] :: answers0

/-- C4 counterexample: with corpus = answers = `answers0` (size 3) and
`last_word = false`, `_get_entropy` recommends "aaaaa", yet the full
valid-guess vocabulary `valid0` (a strict superset of the answers list,
as `VALID_LIST` is in the source) contains "bbaaa", which scores strictly
higher under the same entropy function — so the recommendation is not
selected from the full vocabulary of valid guesses; the code scores
`ANSWER_LIST` instead. -/
theorem get_entropy_pool_counterexample :
    3 ≤ answers0.length
    ∧ get_entropy entC4 answers0 answers0 false
        = Except.ok ['a','a','a','a','a']
    ∧ ['b','b','a','a','a'] ∈ valid0
    ∧ (∀ w ∈ answers0, w ∈ valid0)
    ∧ diff_entropy entC4 answers0 ['a','a','a','a','a']
        < diff_entropy entC4 answers0 ['b','b','a','a','a'] := by
  have e1 : diff_entropy entC4
      [['a','a','a','a','a'], ['a','a','b','b','b'], ['b','b','b','b','b']]
      ['a','a','a','a','a'] = 30 := by
    simp [diff_entropy, has_char_in_pos, entC4, WORD_SIZE,
      List.enum, List.enumFrom] <;> norm_num
  have e2 : diff_entropy entC4
      [['a','a','a','a','a'], ['a','a','b','b','b'], ['b','b','b','b','b']]
      ['a','a','b','b','b'] = 0 := by
    simp [diff_entropy, has_char_in_pos, entC4, WORD_SIZE,
      List.enum, List.enumFrom] <;> norm_num
  have e3 : diff_entropy entC4
      [['a','a','a','a','a'], ['a','a','b','b','b'], ['b','b','b','b','b']]
      ['b','b','b','b','b'] = 20 := by
    simp [diff_entropy, has_char_in_pos, entC4, WORD_SIZE,
      List.enum, List.enumFrom] <;> norm_num
  have e4 : diff_entropy entC4
      [['a','a','a','a','a'], ['a','a','b','b','b'], ['b','b','b','b','b']]
      ['b','b','a','a','a'] = 50 := by
    simp [diff_entropy, has_char_in_pos, entC4, WORD_SIZE,
      List.enum, List.enumFrom] <;> norm_num
  have hmap : answers0.map (diff_entropy entC4 answers0)
      = [(30 : ℚ), 0, 20] := by
    simp only [answers0, List.map_cons, List.map_nil, e1, e2, e3]
  have ham : argmaxIdx [(30 : ℚ), 0, 20] = 0 := by
    norm_num [argmaxIdx, listMax]
  refine ⟨by decide, ?_, by decide, by decide, ?_⟩
  · rw [get_entropy_ge3 entC4 answers0 answers0 false (by decide)]
    have hu : use_words answers0 answers0 false = answers0 := by
      simp [use_words]
    rw [hu, hmap, ham]
    rfl
  · show diff_entropy entC4 answers0 ['a','a','a','a','a']
      < diff_entropy entC4 answers0 ['b','b','a','a','a']
    have ha : answers0
        = [['a','a','a','a','a'], ['a','a','b','b','b'], ['b','b','b','b','b']] :=
      rfl
    rw [ha, e1, e4]
    norm_num

/-- C4 amended: whenever the corpus has size at least 3 and `last_word`
is false, `_get_entropy` scores and selects its recommendation from the
full `ANSWER_LIST` vocabulary (not merely the current corpus): it returns
the answer-list entry maximizing `diff_entropy`. -/
theorem get_entropy_pool_answer_list (ent : Nat → Nat → Nat → ℚ) (corpus answer_list : List Word)
    (h3 : 3 ≤ corpus.length) (hne : answer_list ≠ []) :
    ∃ j, j < answer_list.length
    ∧ get_entropy ent corpus answer_list false
        = Except.ok (answer_list.getD j [])
    ∧ ∀ i, i < answer_list.length →
        diff_entropy ent corpus (answer_list.getD i [])
          ≤ diff_entropy ent corpus (answer_list.getD j []) := by
  have hu : use_words corpus answer_list false = answer_list := by
    simp [use_words]
  obtain ⟨j, h1, h2, h3', _⟩ :=
    get_entropy_argmax_spec ent corpus answer_list false h3
      (by rw [hu]; exact hne)
  rw [hu] at h1 h2 h3'
  exact ⟨j, h1, h2, h3'⟩

/-- Witness for the amended C4 at a concrete corpus and entropy
function. -/
theorem get_entropy_pool_answer_list_witness :
    3 ≤ answers0.length
    ∧ answers0 ≠ []
    ∧ (∃ j, j < answers0.length
      ∧ get_entropy entC4 answers0 answers0 false
          = Except.ok (answers0.getD j [])
      ∧ ∀ i, i < answers0.length →
          diff_entropy entC4 answers0 (answers0.getD i [])
            ≤ diff_entropy entC4 answers0 (answers0.getD j [])) :=
  ⟨by decide, by decide, get_entropy_pool_answer_list entC4 answers0 answers0 (by decide) (by decide)⟩

/-- C9: for every corpus of size at least 3 (and either `last_word`
flag), `_get_entropy` returns the candidate-pool word with the maximum
accumulated score, and every pool entry strictly earlier than the one
returned scores strictly below it — ties are broken by the earliest
occurrence in the pool's iteration order.  The floating-point Shannon
entropy of each normalized count distribution is abstracted by the
parameter `ent`. -/
theorem get_entropy_max_tiebreak (ent : Nat → Nat → Nat → ℚ)
    (corpus answer_list : List Word) (last_word : Bool)
    (h3 : 3 ≤ corpus.length)
    (hpool : use_words corpus answer_list last_word ≠ []) :
    ∃ j, j < (use_words corpus answer_list last_word).length
    ∧ get_entropy ent corpus answer_list last_word
        = Except.ok ((use_words corpus answer_list last_word).getD j [])
    ∧ (∀ i, i < (use_words corpus answer_list last_word).length →
        diff_entropy ent corpus
            ((use_words corpus answer_list last_word).getD i [])
          ≤ diff_entropy ent corpus
            ((use_words corpus answer_list last_word).getD j []))
    ∧ (∀ i, i < j →
        diff_entropy ent corpus
            ((use_words corpus answer_list last_word).getD i [])
          < diff_entropy ent corpus
            ((use_words corpus answer_list last_word).getD j [])) :=
  get_entropy_argmax_spec ent corpus answer_list last_word h3 hpool

/-- Witness for C9 at a concrete corpus and entropy function. -/
theorem get_entropy_max_tiebreak_witness :
    3 ≤ answers0.length
    ∧ use_words answers0 answers0 true ≠ []
    ∧ (∃ j, j < (use_words answers0 answers0 true).length
      ∧ get_entropy entC4 answers0 answers0 true
          = Except.ok ((use_words answers0 answers0 true).getD j [])
      ∧ (∀ i, i < (use_words answers0 answers0 true).length →
          diff_entropy entC4 answers0
              ((use_words answers0 answers0 true).getD i [])
            ≤ diff_entropy entC4 answers0
              ((use_words answers0 answers0 true).getD j []))
      ∧ (∀ i, i < j →
          diff_entropy entC4 answers0
              ((use_words answers0 answers0 true).getD i [])
            < diff_entropy entC4 answers0
              ((use_words answers0 answers0 true).getD j []))) :=
  ⟨by decide, by decide,
    get_entropy_max_tiebreak entC4 answers0 answers0 true (by decide) (by decide)⟩

/-- C6: for every corpus of size exactly 1 or 2 and either value of
`last_word`, `_get_entropy` returns the first corpus element, regardless
of any entropy scores. -/
theorem get_entropy_small_corpus (ent : Nat → Nat → Nat → ℚ)
    (corpus answer_list : List Word) (last_word : Bool)
    (h : corpus.length = 1 ∨ corpus.length = 2) :
    get_entropy ent corpus answer_list last_word
      = Except.ok (corpus.getD 0 []) := by
  unfold get_entropy
  rw [if_neg (by omega), if_pos h]

/-- Witness for C6 on a two-word corpus, for both flag values. -/
theorem get_entropy_small_corpus_witness :
    (([['a','a','a','a','a'], ['a','a','b','b','b']] : List Word).length = 1
      ∨ ([['a','a','a','a','a'], ['a','a','b','b','b']] : List Word).length = 2)
    ∧ get_entropy entC4 [['a','a','a','a','a'], ['a','a','b','b','b']]
        answers0 false = Except.ok ['a','a','a','a','a']
    ∧ get_entropy entC4 [['a','a','a','a','a'], ['a','a','b','b','b']]
        answers0 true = Except.ok ['a','a','a','a','a'] :=
  ⟨by decide,
    get_entropy_small_corpus entC4 [['a','a','a','a','a'], ['a','a','b','b','b']]
      answers0 false (by decide),
    get_entropy_small_corpus entC4 [['a','a','a','a','a'], ['a','a','b','b','b']]
      answers0 true (by decide)⟩

/-- C5: on an empty corpus `_get_entropy` raises the empty-corpus
`ValueError` (modelled as `Except.error`), for either flag, and
`recommend_guess` surfaces the same error to its caller unchanged. -/
theorem get_entropy_empty_corpus (ent : Nat → Nat → Nat → ℚ)
    (answer_list : List Word) (last_word : Bool) :
    get_entropy ent [] answer_list last_word = Except.error emptyCorpusMsg
    ∧ recommend_guess ent [] answer_list last_word
        = Except.error emptyCorpusMsg :=
  ⟨rfl, rfl⟩

/-- C10: `Board.game_over` returns `True` iff the guess equals the stored
actual word; on `True` the state grid is reset to all-`BLANK` rows and the
guess list to empty strings (the stored actual word and `max_turns` are
kept); on `False` the board is unchanged. -/
theorem game_over_spec (b : Board) (player_guess : Word) :
    ((b.game_over player_guess).1 = true ↔ b.actual_word = some player_guess)
    ∧ ((b.game_over player_guess).1 = true →
        (b.game_over player_guess).2.state
          = List.replicate b.max_turns
            (List.replicate WORD_SIZE LetterState.BLANK)
        ∧ (b.game_over player_guess).2.guess_word_list
          = List.replicate b.max_turns []
        ∧ (b.game_over player_guess).2.actual_word = b.actual_word
        ∧ (b.game_over player_guess).2.max_turns = b.max_turns)
    ∧ ((b.game_over player_guess).1 = false → (b.game_over player_guess).2 = b) := by
  unfold Board.game_over
  by_cases h : b.actual_word = some player_guess
  · rw [if_pos h]
    refine ⟨by simp [h], fun _ => ?_, by simp⟩
    simp [Board.reset]
  · rw [if_neg h]
    exact ⟨by simp [h], by simp, fun _ => rfl⟩

/-- Witness for C10 on a concrete board whose actual word is guessed. -/
theorem game_over_spec_witness :
    (((Board.mk 6 (some ['a','a','a','a','a'])
        [[LetterState.NONMATCH]] [['b','b','b','b','b']]).game_over
        ['a','a','a','a','a']).1 = true
      ↔ (Board.mk 6 (some ['a','a','a','a','a'])
        [[LetterState.NONMATCH]] [['b','b','b','b','b']]).actual_word
          = some ['a','a','a','a','a'])
    ∧ (((Board.mk 6 (some ['a','a','a','a','a'])
        [[LetterState.NONMATCH]] [['b','b','b','b','b']]).game_over
        ['a','a','a','a','a']).1 = true →
        ((Board.mk 6 (some ['a','a','a','a','a'])
          [[LetterState.NONMATCH]] [['b','b','b','b','b']]).game_over
          ['a','a','a','a','a']).2.state
          = List.replicate 6 (List.replicate WORD_SIZE LetterState.BLANK)
        ∧ ((Board.mk 6 (some ['a','a','a','a','a'])
          [[LetterState.NONMATCH]] [['b','b','b','b','b']]).game_over
          ['a','a','a','a','a']).2.guess_word_list = List.replicate 6 []
        ∧ ((Board.mk 6 (some ['a','a','a','a','a'])
          [[LetterState.NONMATCH]] [['b','b','b','b','b']]).game_over
          ['a','a','a','a','a']).2.actual_word
          = (Board.mk 6 (some ['a','a','a','a','a'])
            [[LetterState.NONMATCH]] [['b','b','b','b','b']]).actual_word
        ∧ ((Board.mk 6 (some ['a','a','a','a','a'])
          [[LetterState.NONMATCH]] [['b','b','b','b','b']]).game_over
          ['a','a','a','a','a']).2.max_turns
          = (Board.mk 6 (some ['a','a','a','a','a'])
            [[LetterState.NONMATCH]] [['b','b','b','b','b']]).max_turns)
    ∧ (((Board.mk 6 (some ['a','a','a','a','a'])
        [[LetterState.NONMATCH]] [['b','b','b','b','b']]).game_over
        ['a','a','a','a','a']).1 = false →
        ((Board.mk 6 (some ['a','a','a','a','a'])
          [[LetterState.NONMATCH]] [['b','b','b','b','b']]).game_over
          ['a','a','a','a','a']).2
          = Board.mk 6 (some ['a','a','a','a','a'])
            [[LetterState.NONMATCH]] [['b','b','b','b','b']]) :=
  game_over_spec
    (Board.mk 6 (some ['a','a','a','a','a'])
      [[LetterState.NONMATCH]] [['b','b','b','b','b']])
    ['a','a','a','a','a']

/-- Witness for C8 at the duplicate-letter pair "enter" / "sober". -/
theorem compare_guess_wellformed_witness :
    (['e','n','t','e','r'] : Word).length = WORD_SIZE
    ∧ (['s','o','b','e','r'] : Word).length = WORD_SIZE
    ∧ ((compare_guess ['e','n','t','e','r'] ['s','o','b','e','r']).length
        = WORD_SIZE
      ∧ (∀ st ∈ compare_guess ['e','n','t','e','r'] ['s','o','b','e','r'],
          st ≠ LetterState.BLANK)
      ∧ (∀ i, i < WORD_SIZE →
          ((compare_guess ['e','n','t','e','r']
              ['s','o','b','e','r']).getD i LetterState.BLANK
              = LetterState.RIGHT_SPOT
            ↔ (['e','n','t','e','r'] : Word).getD i ' '
              = (['s','o','b','e','r'] : Word).getD i ' '))
      ∧ compare_guess ['s','o','b','e','r'] ['s','o','b','e','r']
          = List.replicate WORD_SIZE LetterState.RIGHT_SPOT) :=
  ⟨by decide, by decide,
    compare_guess_wellformed ['e','n','t','e','r'] ['s','o','b','e','r']
      (by decide) (by decide)⟩

end Wordle
